import Mathlib

/-!
A shallow embedding of the spatial transform and resampling pipeline
demonstrated by `src/Python/21_Transforms_and_Resampling.ipynb`.

The notebook constructs SimpleITK transform objects (identity, translation,
affine, composite), queries their parameter vectors, and resamples a grid
image through them.  The transform and resampling semantics live in the
external SimpleITK library; the notebook only builds the objects and calls
`sitk.Resample`.  Those semantics are therefore modelled here from the
specification's description of the pipeline (dimension D = 2, as used
throughout the notebook), while the notebook's own glue code (its `resample`
wrapper and the composite-building cells) is embedded directly from the
source.  Scalars are rationals; the interpolation kernel is kept as an
explicit parameter of the resampler, as the spec describes it as pluggable.
-/

/-- A physical-space point in dimension 2 (the notebook sets `dimension = 2`). -/
abbrev Point := ℚ × ℚ

/-- A 2×2 real matrix, the linear part of an affine transform. -/
structure Mat2 where
  m00 : ℚ
  m01 : ℚ
  m10 : ℚ
  m11 : ℚ
deriving DecidableEq

/-- Matrix–vector product of the linear part with a point. -/
def Mat2.mulVec (M : Mat2) (p : Point) : Point :=
  (M.m00 * p.1 + M.m01 * p.2, M.m10 * p.1 + M.m11 * p.2)

/-- Modelled from the spec: the polymorphic transform variant set
{Identity, Translation, Affine, Composite} constructed by the notebook
(`sitk.Transform(2, sitk.sitkIdentity)`, `sitk.TranslationTransform`,
`sitk.AffineTransform`, `sitk.Transform(2, sitk.sitkComposite)`), whose
implementations live in the external SimpleITK library.  A composite holds
its children in insertion order (`AddTransform` appends at the end). -/
inductive Transform where
  | identity : Transform
  | translation (offset : Point) : Transform
  | affine (matrix : Mat2) (trans : Point) (center : Point) : Transform
  | composite (children : List Transform) : Transform

mutual

/-- Modelled from the spec: `TransformPoint`.  Identity returns the point
unchanged; translation adds the offset; an affine transform with matrix `M`,
translation `t` and center `c` applies `p ↦ M·p + offset` with the
precomputed offset `t + c - M·c` (the library stores the center-adjusted
offset); a composite applies its children in reverse insertion order,
recursively. -/
def TransformPoint : Transform → Point → Point
  | .identity, p => p
  | .translation o, p => p + o
  | .affine M t c, p => M.mulVec p + (t + c - M.mulVec c)
  | .composite ts, p => applyReversed ts p
termination_by structural t _ => t

/-- Apply a composite's child list to a point: the child at the tail end of
the insertion-ordered list (the most recently added one) is applied first. -/
def applyReversed : List Transform → Point → Point
  | [], p => p
  | t :: ts, p => TransformPoint t (applyReversed ts p)
termination_by structural ts _ => ts

end

/-- Modelled from the spec: `GetParameters`, the optimizable parameter
vector.  Identity has none; translation exposes its offset; affine exposes
the flattened 2×2 matrix followed by the translation.  (The composite's
parameter flattening is not exercised by the notebook and is modelled as
empty.) -/
def GetParameters : Transform → List ℚ
  | .identity => []
  | .translation o => [o.1, o.2]
  | .affine M t _ => [M.m00, M.m01, M.m10, M.m11, t.1, t.2]
  | .composite _ => []

/-- Modelled from the spec: `GetFixedParameters`, the frame-defining values
excluded from the optimizable parameters; for an affine transform this is
the center of rotation. -/
def GetFixedParameters : Transform → List ℚ
  | .affine _ _ c => [c.1, c.2]
  | _ => []

/-- Modelled from the spec: `sitk.AffineTransform(2)`, the default 2D affine
transform — identity matrix, zero translation, and center defaulting to the
origin (the fixed parameters start at zero unless explicitly set). -/
def AffineTransform : Transform :=
  .affine ⟨1, 0, 0, 1⟩ (0, 0) (0, 0)

/-- Modelled from the spec: `AddTransform` appends a child transform at the
end of a composite's insertion-ordered child list. -/
def AddTransform : Transform → Transform → Transform
  | .composite ts, t => .composite (ts ++ [t])
  | s, t => .composite [s, t]

/-- Modelled from the spec: an image — a grid of samples with per-dimension
size, physical spacing and origin (direction cosines are the identity, as
for every image in the notebook).  `pixel i j` is the sample at grid index
`(i, j)`; only indices below `size` are part of the image's content. -/
structure Image where
  size : ℕ × ℕ
  spacing : ℚ × ℚ
  origin : ℚ × ℚ
  pixel : ℕ → ℕ → ℚ

/-- Observable equality of images: identical geometry and identical sample
values at every in-grid index. -/
def Image.Eq (a b : Image) : Prop :=
  a.size = b.size ∧ a.spacing = b.spacing ∧ a.origin = b.origin ∧
    ∀ i < a.size.1, ∀ j < a.size.2, a.pixel i j = b.pixel i j

instance (a b : Image) : Decidable (Image.Eq a b) := by
  unfold Image.Eq; infer_instance

/-- Physical point of a grid index under a reference geometry:
`origin + index * spacing` componentwise (identity direction). -/
def physPoint (g : Image) (idx : ℕ × ℕ) : Point :=
  (g.origin.1 + (idx.1 : ℚ) * g.spacing.1, g.origin.2 + (idx.2 : ℚ) * g.spacing.2)

/-- Continuous index of a physical point in an image's own grid:
`(y - origin) / spacing` componentwise. -/
def contIndex (img : Image) (y : Point) : ℚ × ℚ :=
  ((y.1 - img.origin.1) / img.spacing.1, (y.2 - img.origin.2) / img.spacing.2)

/-- A continuous index lies inside the image's support when each component
is between 0 and size − 1. -/
def inSupport (img : Image) (c : ℚ × ℚ) : Prop :=
  0 ≤ c.1 ∧ c.1 ≤ (img.size.1 : ℚ) - 1 ∧ 0 ≤ c.2 ∧ c.2 ≤ (img.size.2 : ℚ) - 1

instance (img : Image) (c : ℚ × ℚ) : Decidable (inSupport img c) := by
  unfold inSupport; infer_instance

/-- An interpolation kernel: from the source's sample buffer and size and a
continuous index, an estimated sample value.  The kernel sees only index
space, not the physical geometry. -/
abbrev Interpolator := (ℕ → ℕ → ℚ) → ℕ × ℕ → ℚ × ℚ → ℚ

/-- Nearest-neighbor interpolation: round the continuous index to the
nearest grid index and read that sample. -/
def nearest : Interpolator :=
  fun px _ c => px (round c.1).toNat (round c.2).toNat

/-- Modelled from the spec: `sitk.Resample(image, reference_image, transform,
interpolator, default_value)`.  The output takes the reference geometry; for
each output grid index, the reference geometry turns it into a physical
point, the transform maps that point from output space into input space, and
the source image is interpolated at the resulting continuous index — or, if
that index falls outside the source's support, the default value is
written. -/
def Resample (image reference : Image) (transform : Transform)
    (interp : Interpolator) (defaultValue : ℚ) : Image :=
  { size := reference.size
    spacing := reference.spacing
    origin := reference.origin
    pixel := fun i j =>
      if inSupport image (contIndex image (TransformPoint transform (physPoint reference (i, j)))) then
        interp image.pixel image.size
          (contIndex image (TransformPoint transform (physPoint reference (i, j))))
      else defaultValue }

/-- The notebook's `resample` helper: the reference geometry is the input
image itself and the default value is 100.0.  The notebook fixes the
interpolator to `sitk.sitkCosineWindowedSinc`, whose kernel lives in the
external library; the kernel is kept as a parameter here. -/
def resample (image : Image) (transform : Transform) (interp : Interpolator) : Image :=
  Resample image image transform interp 100

/-- The image whose content is the content of `img` rigidly shifted by `v`
in physical space: same grid, spacing and samples, with the origin moved
by `v`. -/
def translateImage (img : Image) (v : Point) : Image :=
  { img with origin := img.origin + v }

/-- A small concrete image used to instantiate the resampling theorems:
2×2 grid, spacing 1/2, origin (3, 4), pairwise distinct sample values. -/
def testImage : Image :=
  { size := (2, 2), spacing := (1/2, 1/2), origin := (3, 4),
    pixel := fun i j => (i : ℚ) + 10 * (j : ℚ) }

/-- A concrete image used to exhibit order sensitivity of composite
transforms: 9×17 grid, unit spacing, origin at zero, pairwise distinct
sample values. -/
def orderDemoImage : Image :=
  { size := (9, 17), spacing := (1, 1), origin := (0, 0),
    pixel := fun i j => (i : ℚ) + 100 * (j : ℚ) }

/-- Modelled from the spec: a resample call viewed as an operation on the
caller's state, which holds the source image; the call returns the caller's
state together with the freshly produced output image (`sitk.Resample`
allocates a new image and leaves its input untouched). -/
structure CallState where
  source : Image

/-- Modelled from the spec: performing one resample call from a caller
state: the state is returned unchanged alongside the new output image. -/
def ResampleCall (st : CallState) (reference : Image) (T : Transform)
    (interp : Interpolator) (d : ℚ) : CallState × Image :=
  (st, Resample st.source reference T interp d)

/-- The binding sequence of the notebook's Two Transforms cell: a composite
is created and the translation transform is added to it twice; the
`composite` variable is then rebound to a freshly constructed empty
composite, to which only the affine transform is added.  The pair holds the
discarded first composite and the final composite, in that order. -/
def twoTransformsCell (affine translation : Transform) : Transform × Transform :=
  let composite := Transform.composite []
  let composite := AddTransform composite translation
  let composite := AddTransform composite translation
  let firstComposite := composite
  let composite := Transform.composite []
  let composite := AddTransform composite affine
  (firstComposite, composite)

/-- Applying a composite's child list distributes over list append: the
suffix (the more recently added children) acts on the point first. -/
theorem applyReversed_append (ts us : List Transform) (p : Point) :
    applyReversed (ts ++ us) p = applyReversed ts (applyReversed us p) := by
  induction ts with
  | nil => simp [applyReversed]
  | cons a ts ih => simp [applyReversed, ih]

/-- Applying a composite's child list is a right fold of `TransformPoint`
over the insertion-ordered children. -/
theorem applyReversed_eq_foldr (ts : List Transform) (p : Point) :
    applyReversed ts p = ts.foldr (fun a q => TransformPoint a q) p := by
  induction ts with
  | nil => simp [applyReversed]
  | cons a ts ih => simp [applyReversed, ih]

/-- C6: for every point `p`, the Identity transform's `TransformPoint`
returns `p` unchanged. -/
theorem identity_transform_point (p : Point) :
    TransformPoint .identity p = p := by
  simp [TransformPoint]

/-- C7: for every point `p` and Translation transform with offset `o`,
`TransformPoint` returns `p + o`, and the transform's parameter vector is
exactly the D-length (D = 2) offset vector. -/
theorem translation_transform_point (o p : Point) :
    TransformPoint (.translation o) p = p + o ∧
    GetParameters (.translation o) = [o.1, o.2] ∧
    (GetParameters (.translation o)).length = 2 := by
  refine ⟨?_, rfl, rfl⟩
  simp [TransformPoint]

/-- C8: for every Affine transform with matrix `M`, translation `t` and
center `c`, `TransformPoint p = M·(p - c) + t + c`; the parameter vector is
the flattened D×D matrix (D² values) followed by the translation (D values),
and the center of the default affine transform is the origin (it changes
only through the fixed parameters). -/
theorem affine_transform_point (M : Mat2) (t c p : Point) :
    TransformPoint (.affine M t c) p = M.mulVec (p - c) + t + c ∧
    GetParameters (.affine M t c) = [M.m00, M.m01, M.m10, M.m11, t.1, t.2] ∧
    (GetParameters (.affine M t c)).length = 2 * 2 + 2 ∧
    GetFixedParameters AffineTransform = [0, 0] := by
  refine ⟨?_, rfl, rfl, rfl⟩
  simp only [TransformPoint, Mat2.mulVec, Prod.ext_iff, Prod.fst_add, Prod.snd_add,
    Prod.fst_sub, Prod.snd_sub]
  constructor <;> ring

/-- C2: `TransformPoint` of a composite applies the children in reverse of
insertion order — after `AddTransform`, the newly added (most recent) child
is applied to the point first, and the previously present children are then
applied to the result; equivalently, a composite's action is the right fold
of `TransformPoint` over its insertion-ordered child list.  Children are
themselves arbitrary transforms, so a nested composite child is treated
recursively by the same rule. -/
theorem composite_applies_last_added_first (ts : List Transform) (t : Transform) (p : Point) :
    TransformPoint (AddTransform (.composite ts) t) p
      = TransformPoint (.composite ts) (TransformPoint t p) ∧
    TransformPoint (.composite ts) p = ts.foldr (fun a q => TransformPoint a q) p := by
  constructor
  · simp [AddTransform, TransformPoint, applyReversed_append, applyReversed]
  · simp [TransformPoint, applyReversed_eq_foldr]

/-- Continuous indices in a shifted image are continuous indices of the
correspondingly un-shifted physical point in the original image. -/
theorem contIndex_translateImage (img : Image) (v y : Point) :
    contIndex (translateImage img v) y = contIndex img (y - v) := by
  simp only [contIndex, translateImage, Prod.fst_add, Prod.snd_add, Prod.fst_sub,
    Prod.snd_sub, Prod.ext_iff]
  constructor <;> ring

/-- C1: the transform given to the resampler maps output physical space to
input physical space.  Resampling through a Translation with offset `o` is
exactly identity-resampling of the source image with its content shifted by
`-o`: a positive offset moves the visible content in the negative direction
in output space, by exactly the offset measured in physical units. -/
theorem resample_translation_negative_shift (image reference : Image) (o : Point)
    (interp : Interpolator) (d : ℚ) :
    Resample image reference (.translation o) interp d
      = Resample (translateImage image (-o)) reference .identity interp d := by
  unfold Resample
  congr 1
  funext i j
  rw [show TransformPoint .identity (physPoint reference (i, j))
        = physPoint reference (i, j) from by simp [TransformPoint]]
  rw [show TransformPoint (.translation o) (physPoint reference (i, j))
        = physPoint reference (i, j) + o from by simp [TransformPoint]]
  rw [contIndex_translateImage, sub_neg_eq_add]
  rfl

/-- C4: resampling an image onto its own geometry through the Identity
transform with nearest-neighbor interpolation reproduces the image exactly,
whatever the default value; the spacing hypotheses record that a SimpleITK
image always has positive physical spacing. -/
theorem resample_identity_reproduces (img : Image) (d : ℚ)
    (h1 : 0 < img.spacing.1) (h2 : 0 < img.spacing.2) :
    Image.Eq (Resample img img .identity nearest d) img := by
  refine ⟨rfl, rfl, rfl, ?_⟩
  intro i hi j hj
  have hci : contIndex img (TransformPoint .identity (physPoint img (i, j)))
      = ((i : ℚ), (j : ℚ)) := by
    simp only [TransformPoint, contIndex, physPoint, Prod.ext_iff]
    constructor
    · rw [add_sub_cancel_left, mul_div_cancel_right₀ _ h1.ne']
    · rw [add_sub_cancel_left, mul_div_cancel_right₀ _ h2.ne']
  have hin : inSupport img ((i : ℚ), (j : ℚ)) := by
    have hi' : (i : ℚ) + 1 ≤ (img.size.1 : ℚ) := by exact_mod_cast hi
    have hj' : (j : ℚ) + 1 ≤ (img.size.2 : ℚ) := by exact_mod_cast hj
    refine ⟨by positivity, by linarith, by positivity, by linarith⟩
  show (if inSupport img (contIndex img (TransformPoint .identity (physPoint img (i, j)))) then
      nearest img.pixel img.size (contIndex img (TransformPoint .identity (physPoint img (i, j))))
    else d) = img.pixel i j
  rw [hci, if_pos hin]
  simp [nearest]

/-- Witness for C4 at a concrete image and default value. -/
theorem resample_identity_reproduces_witness :
    Image.Eq (Resample testImage testImage .identity nearest 7) testImage :=
  resample_identity_reproduces testImage 7 (by norm_num [testImage]) (by norm_num [testImage])

/-- C5: an output grid point whose transform-mapped physical point falls
outside the source image's support is not an error: the resampler writes
exactly the configured default value at that output pixel. -/
theorem resample_out_of_support_default (image reference : Image) (T : Transform)
    (interp : Interpolator) (d : ℚ) (i j : ℕ)
    (h : ¬ inSupport image (contIndex image (TransformPoint T (physPoint reference (i, j))))) :
    (Resample image reference T interp d).pixel i j = d := by
  show (if inSupport image (contIndex image (TransformPoint T (physPoint reference (i, j)))) then
      interp image.pixel image.size (contIndex image (TransformPoint T (physPoint reference (i, j))))
    else d) = d
  rw [if_neg h]

/-- Witness for C5: a translation by (100, 0) maps the first output grid
point of the test image far outside its support, and the output pixel there
is the default value. -/
theorem resample_out_of_support_default_witness :
    (Resample testImage testImage (.translation (100, 0)) nearest 7).pixel 0 0 = 7 :=
  resample_out_of_support_default testImage testImage (.translation (100, 0)) nearest 7 0 0
    (by norm_num [inSupport, contIndex, TransformPoint, physPoint, testImage])

/-- C3: there are transforms A (a translation by (8, 16)) and B (a rotation,
here by 90 degrees) and a point at which the composite built by adding A
then B maps the point differently from the composite built by adding B then
A, and the two composites produce different resampled outputs on a concrete
image. -/
theorem composite_order_sensitive :
    ∃ (A B : Transform) (p : Point),
      TransformPoint (AddTransform (AddTransform (.composite []) A) B) p
        ≠ TransformPoint (AddTransform (AddTransform (.composite []) B) A) p ∧
      ¬ Image.Eq
        (resample orderDemoImage (AddTransform (AddTransform (.composite []) A) B) nearest)
        (resample orderDemoImage (AddTransform (AddTransform (.composite []) B) A) nearest) := by
  refine ⟨.translation (8, 16), .affine ⟨0, -1, 1, 0⟩ (0, 0) (0, 0), (0, 0), ?_, ?_⟩
  · norm_num [AddTransform, TransformPoint, applyReversed, Mat2.mulVec, Prod.ext_iff]
  · have e1 : (resample orderDemoImage
        (AddTransform (AddTransform (.composite []) (.translation (8, 16)))
          (.affine ⟨0, -1, 1, 0⟩ (0, 0) (0, 0))) nearest).pixel 0 0 = 1608 := by
      norm_num [resample, Resample, orderDemoImage, physPoint, contIndex, inSupport,
        nearest, TransformPoint, applyReversed, AddTransform, Mat2.mulVec,
        show (8 : ℤ).toNat = 8 from rfl, show (16 : ℤ).toNat = 16 from rfl]
    have e2 : (resample orderDemoImage
        (AddTransform (AddTransform (.composite []) (.affine ⟨0, -1, 1, 0⟩ (0, 0) (0, 0)))
          (.translation (8, 16))) nearest).pixel 0 0 = 100 := by
      norm_num [resample, Resample, orderDemoImage, physPoint, contIndex, inSupport,
        nearest, TransformPoint, applyReversed, AddTransform, Mat2.mulVec, Int.toNat_ofNat]
    intro h
    have hp := h.2.2.2 0 (by norm_num [resample, Resample, orderDemoImage]) 0
      (by norm_num [resample, Resample, orderDemoImage])
    rw [e1, e2] at hp
    exact absurd hp (by norm_num)

/-- C9: a resample call is a pure function of its inputs — it leaves the
caller's state (in particular the source image) unchanged, and two calls
whose source images and remaining arguments are equal return equal output
images. -/
theorem resample_call_pure (st st' : CallState) (reference : Image) (T : Transform)
    (interp : Interpolator) (d : ℚ) (h : st.source = st'.source) :
    (ResampleCall st reference T interp d).1 = st ∧
    (ResampleCall st reference T interp d).2 = (ResampleCall st' reference T interp d).2 := by
  refine ⟨rfl, ?_⟩
  simp [ResampleCall, h]

/-- Witness for C9 at a concrete state and argument list. -/
theorem resample_call_pure_witness :
    (ResampleCall ⟨testImage⟩ testImage .identity nearest 0).1 = ⟨testImage⟩ ∧
    (ResampleCall ⟨testImage⟩ testImage .identity nearest 0).2
      = (ResampleCall ⟨testImage⟩ testImage .identity nearest 0).2 :=
  resample_call_pure ⟨testImage⟩ ⟨testImage⟩ testImage .identity nearest 0 rfl

/-- C10: in the Two Transforms cell the translation is added twice to the
first composite, which is then discarded by the rebinding; the final
composite holds only the affine transform, and resampling through it is
identical to resampling through the affine transform alone — the
translations contribute nothing to the displayed result. -/
theorem two_transforms_cell_affine_only (a t : Transform) (img : Image)
    (interp : Interpolator) :
    (twoTransformsCell a t).1 = .composite [t, t] ∧
    (twoTransformsCell a t).2 = .composite [a] ∧
    resample img (twoTransformsCell a t).2 interp = resample img a interp := by
  refine ⟨rfl, rfl, ?_⟩
  have hT : ∀ q : Point, TransformPoint (twoTransformsCell a t).2 q = TransformPoint a q := by
    intro q
    simp [twoTransformsCell, AddTransform, TransformPoint, applyReversed]
  unfold resample Resample
  simp only [hT]
